import Mathlib

/-!
Verification of the schema-reference rendering plugin (`typedoc.plugin.mjs`).

The plugin is a single-pass documentation post-processor: it receives a tree
of reflection nodes from the host documentation tool, selects the documented
members, assigns anchors, buckets declarations by category, renders each
declaration to markup, applies a fixed sequence of textual rewrites, and
emits a single page with a front-matter header.

Shallow embedding conventions used throughout this file:
* JavaScript strings are modelled as `List Char`; string methods
  (`replace`, `replaceAll`, `toLowerCase`, `join`, `sort`) are modelled by
  executable Lean functions mirroring their ECMAScript semantics.
* `String.prototype.localeCompare` is locale dependent; it is modelled as
  UTF-16 code-unit comparison (`strLe`), the same comparator as the default
  `Array.prototype.sort`.  All theorems that involve the name sort use the
  same modelled comparator on both sides.
* `String.prototype.toLowerCase` is modelled with `Char.toLower`
  (ASCII case mapping).
* The host tool's reflection objects (`DeclarationReflection`) are modelled
  by the inductive type `DR` below.  Fields that the plugin merely reads
  from the host (`hasComment()` on the comment object itself, the
  `@category` tag contents, `getFriendlyFullName`, the base URL produced by
  the host's `StructureRouter.getFullUrl`, and the theme's JSX render
  callbacks) are modelled as data of `DR` or as function parameters, since
  their implementations live in the host library, not in this repository.
* `children` of a reflection may be absent (`undefined`) in the host; every
  use in the plugin treats `undefined` exactly as the empty list
  (`children?.filter(..) ?? []`, `children?.some(..)` coerced with `!!`),
  so `children` is modelled as a plain `List DR`.
* JSX rendering (`typedoc.JSX.renderElement` of a fragment) concatenates
  the renderings of the fragment's children; the theme callbacks are taken
  to already produce their rendered text.
-/

/-- Kinds of reflections; the plugin only ever tests membership in
`ReflectionKind.Property`, the other kinds are opaque to it. -/
inductive RKind : Type where
  | Project
  | Module
  | Interface
  | Property
  | TypeAlias
  | Other
deriving DecidableEq, Repr

/-- Model of a `typedoc.DeclarationReflection`.

* `ownComment` models `member.hasComment()` (a non-empty documentation
  comment attached directly to the node).
* `categoryTag` models `reflection.comment?.getTag("@category")`: `none`
  when the tag is absent, otherwise the list of the tag content parts'
  `text` fields.
* `children` models `reflection.children` (absent ≡ `[]`, see header).
* `rtype` models the reflection's type: `some tcs` when the type is a
  `typedoc.ReflectionType` (an inline structural type) whose declaration
  has children `tcs` (absent children ≡ `[]`); `none` for any other type. -/
inductive DR : Type where
  | mk (name : List Char) (kind : RKind) (ownComment : Bool)
       (categoryTag : Option (List (List Char)))
       (children : List DR)
       (rtype : Option (List DR))

/-- The reflection's name. -/
def DR.name : DR → List Char
  | .mk n _ _ _ _ _ => n

/-- The reflection's kind. -/
def DR.kind : DR → RKind
  | .mk _ k _ _ _ _ => k

/-- Whether the node carries a non-empty documentation comment directly
(models `member.hasComment()`). -/
def DR.ownComment : DR → Bool
  | .mk _ _ c _ _ _ => c

/-- The `@category` tag content part texts, if the tag is present. -/
def DR.categoryTag : DR → Option (List (List Char))
  | .mk _ _ _ t _ _ => t

/-- The reflection's direct children. -/
def DR.children : DR → List DR
  | .mk _ _ _ _ ch _ => ch

/-- The children of the inline structural type's declaration, when the
reflection's type is a `ReflectionType`. -/
def DR.rtype : DR → Option (List DR)
  | .mk _ _ _ _ _ t => t

/-- `hasComment` from the plugin:

```js
function hasComment(member) {
  return member.hasComment() || (
    member.type instanceof typedoc.ReflectionType &&
    !!member.type.declaration.children?.some((child) => hasComment(child))
  );
}
``` -/
def hasComment : DR → Bool
  | .mk _ _ own _ _ none => own
  | .mk _ _ own _ _ (some tcs) =>
      own || tcs.attach.any fun c => hasComment c.1
termination_by d => sizeOf d
decreasing_by
  have h1 := List.sizeOf_lt_of_mem c.2
  simp only [DR.mk.sizeOf_spec, Option.some.sizeOf_spec]
  omega

/-- Unfolding equation for `hasComment` when the type is not an inline
structural type. -/
theorem hasComment_mk_none (n k own ct ch) :
    hasComment (.mk n k own ct ch none) = own := by
  simp [hasComment]

/-- Auxiliary: `any` over an attached list coincides with `any` over the
list itself. -/
theorem attach_any_eq {α : Type} (l : List α) (f : α → Bool) :
    (l.attach.any fun c => f c.1) = l.any f := by
  cases h : l.any f with
  | true =>
      rw [List.any_eq_true] at h
      obtain ⟨a, ha, hfa⟩ := h
      rw [List.any_eq_true]
      exact ⟨⟨a, ha⟩, List.mem_attach _ _, hfa⟩
  | false =>
      rw [List.any_eq_false] at h
      rw [List.any_eq_false]
      intro c _
      exact h c.1 c.2

/-- Unfolding equation for `hasComment` when the type is an inline
structural type with declaration children `tcs`. -/
theorem hasComment_mk_some (n k own ct ch tcs) :
    hasComment (.mk n k own ct ch (some tcs)) = (own || tcs.any hasComment) := by
  rw [hasComment]
  exact congrArg (own || ·) (attach_any_eq tcs hasComment)

/-- Lexicographic comparison of char lists by code point; models both the
default `Array.prototype.sort` comparator on strings (UTF-16 code-unit
order) and — as a modelling decision, see the header — `localeCompare`. -/
def strLe : List Char → List Char → Bool
  | [], _ => true
  | _ :: _, [] => false
  | a :: as, b :: bs =>
      if a.toNat < b.toNat then true
      else if b.toNat < a.toNat then false
      else strLe as bs

/-- Stable insertion used to model a JavaScript stable sort: `x` is placed
before the first element `y` with `le x y`. -/
def insertLe {α : Type} (le : α → α → Bool) (x : α) : List α → List α
  | [] => [x]
  | y :: ys => if le x y then x :: y :: ys else y :: insertLe le x ys

/-- Stable sort by the boolean comparator `le`; models
`Array.prototype.sort` (which is required to be stable and to sort
according to the comparator). -/
def sortBy {α : Type} (le : α → α → Bool) (l : List α) : List α :=
  l.foldr (insertLe le) []

/-- `Array.prototype.join("\n")`. -/
def joinNl : List (List Char) → List Char
  | [] => []
  | [x] => x
  | x :: y :: rest => x ++ '\n' :: joinNl (y :: rest)

/-- `Array.prototype.join(" ")`. -/
def joinSpace : List (List Char) → List Char
  | [] => []
  | [x] => x
  | x :: y :: rest => x ++ ' ' :: joinSpace (y :: rest)

/-- `String.prototype.replaceAll` with a single-character pattern `t` and
replacement `r`: every occurrence of `t` is replaced. -/
def replChar (t : Char) (r : List Char) (s : List Char) : List Char :=
  s.flatMap fun c => if c = t then r else [c]

/-- `String.prototype.replace` with a plain-string pattern: replaces only
the first occurrence of `pat`, here with the empty string (as used for
stripping `".html"`). -/
def replFirst (pat : List Char) : List Char → List Char
  | [] => []
  | c :: rest =>
      if pat.isPrefixOf (c :: rest) then (c :: rest).drop pat.length
      else c :: replFirst pat rest

/-- Whether `pat` occurs as a contiguous subsequence of `s`. -/
def containsSeq (pat : List Char) : List Char → Bool
  | [] => decide (pat = [])
  | c :: rest => pat.isPrefixOf (c :: rest) || containsSeq pat rest

/-- The regex `/[./#]/g` replacement with `"-"`: every `.`, `/` or `#`
becomes a hyphen. -/
def dashify (s : List Char) : List Char :=
  s.map fun c => if c = '.' || c = '/' || c = '#' then '-' else c

/-- `SchemaReferenceRouter.getAnchor`:

```js
getAnchor(target) {
  if (target instanceof typedoc.DeclarationReflection &&
    target.kindOf(typedoc.ReflectionKind.Property) &&
    !hasComment(target)
  ) {
    return "";
  } else {
    return super.getFullUrl(target).replace(".html", "")
      .replaceAll(/[./#]/g, "-").toLowerCase();
  }
}
```

`fullUrl` is the string returned by the host's `StructureRouter.getFullUrl`
(external); all targets modelled here are declaration reflections, so the
`instanceof` test is always true. -/
def getAnchor (fullUrl : List Char) (target : DR) : List Char :=
  if target.kind = RKind.Property ∧ hasComment target = false then []
  else (dashify (replFirst ".html".toList fullUrl)).map Char.toLower

/-- `SchemaReferenceRouter.getFullUrl`: wraps the anchor as a page-fragment
reference. -/
def getFullUrl (fullUrl : List Char) (target : DR) : List Char :=
  '#' :: getAnchor fullUrl target

/-- `getReflectionCategory`:

```js
const categoryTag = reflection.comment?.getTag("@category");
return categoryTag ? categoryTag.content.map((part) => part.text).join(" ") : "";
``` -/
def getReflectionCategory (reflection : DR) : List Char :=
  match reflection.categoryTag with
  | some parts => joinSpace parts
  | none => []

/-- `renderCategory`:

```js
let heading = category || "Common Types";
if (heading.match(/^[a-z]/)) heading = "`" + heading + "`";
return `## ${heading}\n`;
``` -/
def renderCategory (category : List Char) : List Char :=
  let heading := if category = [] then "Common Types".toList else category
  let heading2 :=
    match heading with
    | c :: _ => if 'a' ≤ c ∧ c ≤ 'z' then '`' :: (heading ++ ['`']) else heading
    | [] => heading
  "## ".toList ++ heading2 ++ ['\n']

/-- The non-breaking-space character `" "`. -/
def nbspChar : Char := Char.ofNat 160

/-- Whether `c` is one of the digits matched by the regex class `[1-6]`. -/
def isHDigit (c : Char) : Bool := '1' ≤ c && c ≤ '6'

/-- The replacement text of sanitizer rewrite 1 for a heading of level `d`:
the template `<div data-typedoc-h="$1"`. -/
def divOpen (d : Char) : List Char :=
  "<div data-typedoc-h=\"".toList ++ d :: ['"']

/-- Sanitizer rewrite, opening headings:
`content.replaceAll(/<h([1-6])/g, `<div data-typedoc-h="$1"`)`. -/
def convertHeadingOpen : List Char → List Char
  | '<' :: 'h' :: d :: rest =>
      if isHDigit d then divOpen d ++ convertHeadingOpen rest
      else '<' :: convertHeadingOpen ('h' :: d :: rest)
  | c :: rest => c :: convertHeadingOpen rest
  | [] => []

/-- Sanitizer rewrite, closing headings:
`content.replaceAll(/<\/h[1-6]>/g, `</div>`)`. -/
def convertHeadingClose : List Char → List Char
  | '<' :: '/' :: 'h' :: d :: '>' :: rest =>
      if isHDigit d then "</div>".toList ++ convertHeadingClose rest
      else '<' :: convertHeadingClose ('/' :: 'h' :: d :: '>' :: rest)
  | c :: rest => c :: convertHeadingClose rest
  | [] => []

/-- Sanitizer rewrite 2: `content.replaceAll("  ", " ")`
(non-overlapping, left to right, as `String.prototype.replaceAll`). -/
def reduceIndent : List Char → List Char
  | a :: b :: rest =>
      if a = nbspChar ∧ b = nbspChar then nbspChar :: reduceIndent rest
      else a :: reduceIndent (b :: rest)
  | s => s

/-- Sanitizer rewrite 3: `content.replaceAll(" ", "&nbsp;")`. -/
def encodeNbsp (s : List Char) : List Char :=
  replChar nbspChar "&nbsp;".toList s

/-- Sanitizer rewrite 4: `content.replaceAll(/\n+</g, " <")` — a maximal
run of newlines immediately followed by `<` becomes a single space. -/
def collapseNewlineTag : List Char → List Char
  | [] => []
  | '\n' :: rest =>
      if ((rest.dropWhile fun c => c = '\n').head? = some '<') then
        ' ' :: collapseNewlineTag (rest.dropWhile fun c => c = '\n')
      else '\n' :: collapseNewlineTag rest
  | c :: rest => c :: collapseNewlineTag rest
termination_by s => s.length
decreasing_by
  · simp only [List.length_cons]
    have hsfx : (rest.dropWhile fun c => decide (c = '\n')) <:+ rest :=
      List.dropWhile_suffix _
    have := hsfx.length_le
    omega
  · simp
  · simp

/-- Sanitizer rewrite 5: the three escape substitutions
`replaceAll("[", "&#x5B;").replaceAll("_", "&#x5F;").replaceAll("{", "&#x7B;")`
in the order the code chains them. -/
def escapeMintlify (s : List Char) : List Char :=
  replChar '\x7b' "&#x7B;".toList
    (replChar '_' "&#x5F;".toList
      (replChar '[' "&#x5B;".toList s))

/-- The literal prefix of the `@TJS-type` paragraph pattern. -/
def tjsOpen : List Char := "<p>@TJS-type ".toList

/-- The literal closing of the `@TJS-type` paragraph pattern. -/
def tjsClose : List Char := "</p>".toList

/-- Attempt to match the regex `/<p>@TJS-type [^<]+<\/p>/` at the start of
`s`; on success return the remainder after the match.  `[^<]+` is a greedy
non-empty run of characters other than `<`, which must be immediately
followed by `</p>` (shortening the run cannot help, as any shorter run is
still followed by a non-`<` character). -/
def tjsMatch (s : List Char) : Option (List Char) :=
  if tjsOpen.isPrefixOf s then
    let s1 := s.drop tjsOpen.length
    let body := s1.takeWhile fun c => c ≠ '<'
    if body ≠ [] ∧ tjsClose.isPrefixOf (s1.drop body.length) then
      some ((s1.drop body.length).drop tjsClose.length)
    else none
  else none

/-- A successful `tjsMatch` consumes at least the pattern prefix. -/
theorem tjsMatch_length {s r : List Char} (h : tjsMatch s = some r) :
    r.length < s.length := by
  unfold tjsMatch at h
  split at h
  · rename_i hp
    simp only [] at h
    split at h
    · rename_i hb
      have hlen : tjsOpen.length ≤ s.length :=
        List.IsPrefix.length_le (List.isPrefixOf_iff_prefix.mp hp)
      have h13 : tjsOpen.length = 13 := by decide
      cases h
      simp only [List.length_drop]
      omega
    · exact absurd h (by simp)
  · exact absurd h (by simp)

/-- Sanitizer rewrite 6:
`content.replaceAll(/<p>@TJS-type [^<]+<\/p>/g, "")` — every matched
paragraph is removed, scanning left to right, non-overlapping. -/
def stripTjs : List Char → List Char
  | [] => []
  | c :: rest =>
      match h : tjsMatch (c :: rest) with
      | some r => stripTjs r
      | none => c :: stripTjs rest
termination_by s => s.length
decreasing_by
  · exact tjsMatch_length h
  · simp

/-- The full 6-step sanitizer, in the order the code applies the rewrites. -/
def sanitizeContent (s : List Char) : List Char :=
  stripTjs (escapeMintlify (collapseNewlineTag (encodeNbsp (reduceIndent
    (convertHeadingClose (convertHeadingOpen s))))))

/-- The theme render callbacks used by `renderReflection`, modelled as
string-producing functions (the composition of building JSX elements and
`typedoc.JSX.renderElement`, which are host-library code). -/
structure RenderContext where
  reflectionPreview : DR → Option (List Char)
  commentSummary : DR → List Char
  memberDeclaration : DR → List Char
  member : DR → List Char
  friendlyFullName : DR → List Char

/-- The member renderings appended below a declaration:
`members = reflection.children?.filter(hasComment) ?? []` followed by
`members.map(member => context.member(member))`. -/
def renderedMembers (ctx : RenderContext) (reflection : DR) : List (List Char) :=
  (reflection.children.filter hasComment).map ctx.member

/-- The pre-sanitization body of a declaration's fragment: the JSX
fragment `codeBlock ? [codeBlock, context.commentSummary(reflection)] :
context.memberDeclaration(reflection)` followed by the member renderings,
rendered by concatenation. -/
def renderBody (ctx : RenderContext) (reflection : DR) : List Char :=
  (match ctx.reflectionPreview reflection with
   | some codeBlock => codeBlock ++ ctx.commentSummary reflection
   | none => ctx.memberDeclaration reflection) ++
  (renderedMembers ctx reflection).flatten

/-- `renderReflection`: body content run through the 6-step sanitizer,
then the level-3 heading line with the friendly full name prepended:
`return ### \`${name}\`\n\n${content}\n`. -/
def renderReflection (ctx : RenderContext) (reflection : DR) : List Char :=
  "### `".toList ++ ctx.friendlyFullName reflection ++ "`\n\n".toList ++
    sanitizeContent (renderBody ctx reflection) ++ ['\n']

/-- The category-to-fragments accumulator (`Map<string, string[]>` in the
code); JavaScript `Map` preserves key insertion order, modelled by an
association list ordered by first insertion. -/
abbrev BucketMap := List (List Char × List (List Char))

/-- One step of the accumulation loop: if the category key is absent the
bucket is created as `[renderCategory(category)]`, then the rendered
fragment is pushed onto the bucket. -/
def bucketAppend (c : List Char) (v : List Char) : BucketMap → BucketMap
  | [] => [(c, [renderCategory c, v])]
  | (k, vs) :: rest =>
      if k = c then (k, vs ++ [v]) :: rest
      else (k, vs) :: bucketAppend c v rest

/-- The accumulation loop of `renderPageEvents` over the name-sorted
declaration events. -/
def buildBuckets (render : DR → List Char) (decls : List DR) : BucketMap :=
  decls.foldl (fun m d => bucketAppend (getReflectionCategory d) (render d) m) []

/-- `Map.prototype.get`, totalised with `[]` (the code only ever looks up
keys of the map). -/
def lookupBucket : BucketMap → List Char → List (List Char)
  | [], _ => []
  | (k, vs) :: rest, c => if k = c then vs else lookupBucket rest c

/-- `Map.prototype.has`. -/
def hasKey : BucketMap → List Char → Bool
  | [], _ => false
  | (k, _) :: rest, c => k = c || hasKey rest c

/-- The name comparator of the declaration sort
(`event1.model.name.localeCompare(event2.model.name)`, modelled as
code-unit order, see the header). -/
def nameLe (a b : DR) : Bool := strLe a.name b.name

/-- The category keys of the assembled map, sorted by the default
`Array.prototype.sort` (`[...outputsByCategory.keys()].sort()`). -/
def sortedCategoryKeys (render : DR → List Char) (decls : List DR) : List (List Char) :=
  sortBy strLe ((buildBuckets render (sortBy nameLe decls)).map Prod.fst)

/-- `renderPageEvents`: sort the declaration events by name, accumulate
buckets by category, then emit the buckets in sorted key order, joined by
single newlines.  The input is the list of declaration events (every event
modelled here is a declaration event, so the `filter` in the code keeps
everything). -/
def renderPageEvents (ctx : RenderContext) (decls : List DR) : List Char :=
  joinNl ((sortedCategoryKeys (renderReflection ctx) decls).flatMap
    (lookupBucket (buildBuckets (renderReflection ctx) (sortBy nameLe decls))))

/-- The output handler registered by `load`: the front-matter block, the
anchor-target element and the rendered document, in the order the code
writes them to standard output. -/
def load (ctx : RenderContext) (decls : List DR) : List Char :=
  "---\n".toList ++ "title: Schema Reference\n".toList ++ "---\n\n".toList ++
    "<div id=\"schema-reference\" />\n\n".toList ++ renderPageEvents ctx decls

/-- Characters are determined by their code points. -/
theorem char_eq_of_toNat_eq {a b : Char} (h : a.toNat = b.toNat) : a = b :=
  Char.ext (UInt32.ext h)

/-- Code point of `Char.ofNat` for valid scalar values below the surrogate
range. -/
theorem char_ofNat_toNat {n : Nat} (h : n < 55296) : (Char.ofNat n).toNat = n := by
  unfold Char.ofNat
  rw [dif_pos]
  · rfl
  · exact Or.inl h

/-- Code-point behaviour of ASCII lower-casing. -/
theorem toLower_toNat_spec (x : Char) :
    (Char.toLower x).toNat =
      if 65 ≤ x.toNat ∧ x.toNat ≤ 90 then x.toNat + 32 else x.toNat := by
  simp only [Char.toLower]
  split
  · rename_i h
    rw [char_ofNat_toNat (by omega)]
  · rfl

/-- A lower-cased character that was not `.`, `/` or `#` is not an ASCII
upper-case letter and is still none of `.`, `/`, `#`. -/
theorem toLower_anchor_char (c0 : Char)
    (h : c0.toNat ≠ 46 ∧ c0.toNat ≠ 47 ∧ c0.toNat ≠ 35) :
    ((Char.toLower c0).toNat < 65 ∨ 90 < (Char.toLower c0).toNat) ∧
      Char.toLower c0 ≠ '.' ∧ Char.toLower c0 ≠ '/' ∧ Char.toLower c0 ≠ '#' := by
  have h46 : ('.' : Char).toNat = 46 := rfl
  have h47 : ('/' : Char).toNat = 47 := rfl
  have h35 : ('#' : Char).toNat = 35 := rfl
  have hs := toLower_toNat_spec c0
  by_cases hc : 65 ≤ c0.toNat ∧ c0.toNat ≤ 90
  · rw [if_pos hc] at hs
    refine ⟨Or.inr (by omega), ?_, ?_, ?_⟩
    · intro he; rw [he, h46] at hs; omega
    · intro he; rw [he, h47] at hs; omega
    · intro he; rw [he, h35] at hs; omega
  · rw [if_neg hc] at hs
    refine ⟨by omega, ?_, ?_, ?_⟩
    · intro he; rw [he, h46] at hs; omega
    · intro he; rw [he, h47] at hs; omega
    · intro he; rw [he, h35] at hs; omega

/-- Three-level nested record: only the deepest leaf carries a comment. -/
def deepLeaf : DR := .mk "deep".toList RKind.Property true none [] none

/-- Middle level of the nested record: no direct comment, inline
structural type containing `deepLeaf`. -/
def midNode : DR := .mk "mid".toList RKind.Property false none [] (some [deepLeaf])

/-- Top level of the nested record: no direct comment, inline structural
type containing `midNode`. -/
def topNode : DR := .mk "top".toList RKind.Interface false none [] (some [midNode])

/-- C1: for every symbol node `S`, `hasComment S` holds iff `S` carries a
non-empty documentation comment directly, or `S`'s type is an inline
structural type and some nested child of that type (recursively, via the
same predicate) has documentation; and in the 3-level nested record
`topNode`/`midNode`/`deepLeaf` whose only comment is on the deepest leaf,
every enclosing level counts as documented. -/
theorem claim1_hasComment_spec :
    (∀ S : DR, hasComment S = true ↔
      (S.ownComment = true ∨
        ∃ tcs, S.rtype = some tcs ∧ ∃ c ∈ tcs, hasComment c = true)) ∧
    (topNode.ownComment = false ∧ midNode.ownComment = false ∧
      deepLeaf.ownComment = true ∧
      hasComment topNode = true ∧ hasComment midNode = true ∧
      hasComment deepLeaf = true) := by
  constructor
  · intro S
    cases S with
    | mk n k own ct ch rt =>
        cases rt with
        | none =>
            rw [hasComment_mk_none]
            simp [DR.ownComment, DR.rtype]
        | some tcs =>
            rw [hasComment_mk_some]
            simp [DR.ownComment, DR.rtype, List.any_eq_true]
  · refine ⟨rfl, rfl, rfl, ?_, ?_, ?_⟩
    · simp [topNode, midNode, deepLeaf, hasComment_mk_some, hasComment_mk_none]
    · simp [midNode, deepLeaf, hasComment_mk_some, hasComment_mk_none]
    · simp [deepLeaf, hasComment_mk_none]

/-- C2: a Property-kind symbol without documentation gets the empty
anchor; any other symbol's anchor contains no ASCII upper-case letter
(code points 65–90) and none of `.`, `/`, `#` — for every base URL the
host router may produce. -/
theorem claim2_anchor_spec (u : List Char) (t : DR) :
    (t.kind = RKind.Property ∧ hasComment t = false → getAnchor u t = []) ∧
    (¬(t.kind = RKind.Property ∧ hasComment t = false) →
      ∀ c, c ∈ getAnchor u t →
        (c.toNat < 65 ∨ 90 < c.toNat) ∧ c ≠ '.' ∧ c ≠ '/' ∧ c ≠ '#') := by
  constructor
  · intro h
    simp [getAnchor, h]
  · intro h c hc
    rw [getAnchor, if_neg h] at hc
    obtain ⟨c0, hc0, rfl⟩ := List.mem_map.mp hc
    obtain ⟨c1, _, rfl⟩ := List.mem_map.mp hc0
    by_cases hd : c1 = '.' ∨ c1 = '/' ∨ c1 = '#'
    · rw [if_pos (by rcases hd with h | h | h <;> simp [h])]
      exact toLower_anchor_char '-' (by refine ⟨?_, ?_, ?_⟩ <;> decide)
    · push_neg at hd
      rw [if_neg (by simp only [Bool.or_eq_true, decide_eq_true_eq]; tauto)]
      refine toLower_anchor_char c1 ⟨?_, ?_, ?_⟩
      · intro he; exact hd.1 (char_eq_of_toNat_eq he)
      · intro he; exact hd.2.1 (char_eq_of_toNat_eq he)
      · intro he; exact hd.2.2 (char_eq_of_toNat_eq he)

/-- An undocumented property used as the `claim2` witness input. -/
def plainProp : DR := .mk "p".toList RKind.Property false none [] none

/-- Witness for C2: at a concrete undocumented property and base URL, the
anchor is the empty string. -/
theorem claim2_anchor_spec_witness :
    getAnchor "Interfaces.html#Prop".toList plainProp = [] :=
  (claim2_anchor_spec "Interfaces.html#Prop".toList plainProp).1
    ⟨rfl, by rw [plainProp, hasComment_mk_none]⟩

/-- Modelled from the spec's words for comparison (refinement check of the
category contract): "concatenation of its text parts" — no separator —
when the tag is present, else empty string. -/
def categoryOfSpec (reflection : DR) : List Char :=
  match reflection.categoryTag with
  | some parts => parts.flatten
  | none => []

/-- A declaration whose `@category` tag content has two text parts. -/
def catTwoParts : DR :=
  .mk "x".toList RKind.Interface true (some ["a".toList, "b".toList]) [] none

/-- Counterexample to C4 as stated: on a category tag with the two text
parts `"a"` and `"b"`, the code produces `"a b"` (parts joined with a
single space), not the concatenation `"ab"`. -/
theorem claim4_counterexample :
    getReflectionCategory catTwoParts = "a b".toList ∧
    categoryOfSpec catTwoParts = "ab".toList ∧
    getReflectionCategory catTwoParts ≠ categoryOfSpec catTwoParts := by
  refine ⟨rfl, rfl, ?_⟩
  decide

/-- C4 (amended): `categoryOf` returns the text parts of the category tag
joined with a single space when the tag is present, and the empty string
when the tag is absent. -/
theorem claim4_category_join (r : DR) :
    (∀ parts, r.categoryTag = some parts →
      getReflectionCategory r = joinSpace parts) ∧
    (r.categoryTag = none → getReflectionCategory r = []) := by
  constructor
  · intro parts h
    simp [getReflectionCategory, h]
  · intro h
    simp [getReflectionCategory, h]

/-- Witness for the amended C4 at a concrete two-part tag. -/
theorem claim4_category_join_witness :
    getReflectionCategory catTwoParts = joinSpace ["a".toList, "b".toList] :=
  (claim4_category_join catTwoParts).1 _ rfl

/-- C5: the bucket heading is `Common Types` for the empty label; a label
whose first character is a lower-case ASCII letter is wrapped in inline
code (backticks); all other labels appear unwrapped.  (Each heading is
rendered in the template `## …\n`.) -/
theorem claim5_renderCategory_spec (label : List Char) :
    (label = [] → renderCategory label = "## Common Types\n".toList) ∧
    (∀ c rest, label = c :: rest →
      (('a' ≤ c ∧ c ≤ 'z') →
        renderCategory label = "## ".toList ++ ('`' :: (label ++ ['`'])) ++ ['\n']) ∧
      (¬('a' ≤ c ∧ c ≤ 'z') →
        renderCategory label = "## ".toList ++ label ++ ['\n'])) := by
  constructor
  · intro h
    subst h
    decide
  · intro c rest h
    subst h
    constructor
    · intro hlc
      simp only [renderCategory, if_neg (List.cons_ne_nil c rest), if_pos hlc]
    · intro hlc
      simp only [renderCategory, if_neg (List.cons_ne_nil c rest), if_neg hlc]

/-- Witness for C5 at the concrete labels `"prompts"` (lower-case, gets
wrapped) and `""` (empty, becomes `Common Types`). -/
theorem claim5_renderCategory_spec_witness :
    renderCategory [] = "## Common Types\n".toList ∧
    renderCategory "prompts".toList =
      "## ".toList ++ ('`' :: ("prompts".toList ++ ['`'])) ++ ['\n'] :=
  ⟨(claim5_renderCategory_spec []).1 rfl,
   ((claim5_renderCategory_spec "prompts".toList).2 'p' "rompts".toList rfl).1
     (by decide)⟩

/-- `takeWhile` passes over a block whose characters all satisfy the
predicate. -/
theorem takeWhile_append_all (p : Char → Bool) (xs ys : List Char)
    (h : ∀ x ∈ xs, p x = true) :
    (xs ++ ys).takeWhile p = xs ++ ys.takeWhile p := by
  induction xs with
  | nil => simp
  | cons a t ih =>
      simp only [List.cons_append, List.takeWhile_cons, h a (by simp)]
      rw [ih (fun x hx => h x (by simp [hx]))]
      simp

/-- C6: in a rendered declaration fragment, the nested member renderings
appended below the declaration's own content are exactly the renderings of
the direct children satisfying `hasComment`; a direct child belongs to
that list iff it is a child with documentation, so children without
documentation are omitted from the fragment entirely. -/
theorem claim6_rendered_members (ctx : RenderContext) (r : DR) :
    (renderReflection ctx r =
      "### `".toList ++ ctx.friendlyFullName r ++ "`\n\n".toList ++
        sanitizeContent
          ((match ctx.reflectionPreview r with
            | some codeBlock => codeBlock ++ ctx.commentSummary r
            | none => ctx.memberDeclaration r) ++
           ((r.children.filter hasComment).map ctx.member).flatten) ++ ['\n']) ∧
    (∀ c, c ∈ r.children.filter hasComment ↔
      c ∈ r.children ∧ hasComment c = true) := by
  constructor
  · rfl
  · intro c
    exact List.mem_filter

/-- C10: the sanitizer is applied only to the body content; the level-3
heading line holding the friendly full name is concatenated afterwards and
never rewritten, so every character of the name — including `[`, `_`, `{`
or heading-like text — appears literally in the fragment's first line. -/
theorem claim10_heading_unsanitized (ctx : RenderContext) (r : DR)
    (h : '\n' ∉ ctx.friendlyFullName r) :
    (renderReflection ctx r =
      "### `".toList ++ ctx.friendlyFullName r ++ "`\n\n".toList ++
        sanitizeContent (renderBody ctx r) ++ ['\n']) ∧
    (renderReflection ctx r).takeWhile (fun c => c ≠ '\n') =
      "### `".toList ++ ctx.friendlyFullName r ++ ['`'] := by
  refine ⟨rfl, ?_⟩
  rw [show renderReflection ctx r =
      "### `".toList ++ (ctx.friendlyFullName r ++ ("`\n\n".toList ++
        (sanitizeContent (renderBody ctx r) ++ ['\n']))) from by
    simp [renderReflection, List.append_assoc]]
  rw [takeWhile_append_all _ _ _ (by decide)]
  rw [takeWhile_append_all _ (ctx.friendlyFullName r) _ (fun x hx => by
    simp only [decide_eq_true_eq]
    intro he
    exact h (he ▸ hx))]
  simp [List.takeWhile_cons]

/-- Render context whose friendly full name contains `[`, `_` and braces,
used as the `claim10` witness input. -/
def nameCtx : RenderContext :=
  ⟨fun _ => none, fun _ => [], fun _ => [], fun _ => [],
   fun _ => "A_[b]\x7bc\x7d".toList⟩

/-- Witness for C10: at a concrete declaration whose name contains `[`,
`_` and `{`, the fragment's first line carries the name verbatim. -/
theorem claim10_heading_unsanitized_witness :
    (renderReflection nameCtx plainProp).takeWhile (fun c => c ≠ '\n') =
      "### `".toList ++ "A_[b]\x7bc\x7d".toList ++ ['`'] :=
  (claim10_heading_unsanitized nameCtx plainProp (by decide)).2

/-- A declaration tagged `@category Tools`. -/
def toolsDecl : DR := .mk "Alpha".toList RKind.Interface true (some ["Tools".toList]) [] none

/-- A declaration with no category tag (default bucket). -/
def untaggedDecl : DR := .mk "Beta".toList RKind.Interface true none [] none

/-- A declaration tagged `@category prompts`. -/
def promptsDecl : DR := .mk "Gamma".toList RKind.Interface true (some ["prompts".toList]) [] none

/-- The three-declaration project of the category-ordering test. -/
def exampleDecls : List DR := [toolsDecl, untaggedDecl, promptsDecl]

/-- A trivial render context (all host callbacks return nothing); bucket
keys do not depend on the callbacks. -/
def emptyCtx : RenderContext :=
  ⟨fun _ => none, fun _ => [], fun _ => [], fun _ => [], fun d => d.name⟩

/-- The category headings of the assembled document, in emission order. -/
def categoryHeadings (render : DR → List Char) (decls : List DR) : List (List Char) :=
  (sortedCategoryKeys render decls).map renderCategory

/-- `strLe` is total. -/
theorem strLe_total : ∀ a b : List Char, strLe a b = true ∨ strLe b a = true := by
  intro a
  induction a with
  | nil => intro b; left; rfl
  | cons x xs ih =>
      intro b
      cases b with
      | nil => right; rfl
      | cons y ys =>
          by_cases hxy : x.toNat < y.toNat
          · left; simp [strLe, hxy]
          · by_cases hyx : y.toNat < x.toNat
            · right; simp [strLe, hyx]
            · rcases ih ys with h | h
              · left; simp [strLe, hxy, hyx, h]
              · right; simp [strLe, hxy, hyx, h]

/-- The head of an insertion is the inserted element or the old head. -/
theorem insertLe_head {α : Type} (le : α → α → Bool) (x : α) (l : List α) :
    (insertLe le x l).head? = some x ∨ (insertLe le x l).head? = l.head? := by
  cases l with
  | nil => left; rfl
  | cons y ys =>
      rw [insertLe]
      split
      · left; rfl
      · right; rfl

/-- Insertion into a `le`-chain-sorted list keeps it chain-sorted, given
totality of the comparator. -/
theorem chain'_insertLe {α : Type} (le : α → α → Bool)
    (total : ∀ a b, le a b = true ∨ le b a = true) (x : α) :
    ∀ l : List α, List.Chain' (fun a b => le a b = true) l →
      List.Chain' (fun a b => le a b = true) (insertLe le x l) := by
  intro l
  induction l with
  | nil => intro _; simp [insertLe]
  | cons y ys ih =>
      intro h
      have hhd := (List.chain'_cons'.mp h).1
      have htl := (List.chain'_cons'.mp h).2
      rw [insertLe]
      split
      · rename_i hxy
        refine List.chain'_cons'.mpr ⟨?_, h⟩
        intro b hb
        rw [List.head?_cons, Option.mem_some_iff] at hb
        exact hb ▸ hxy
      · rename_i hxy
        refine List.chain'_cons'.mpr ⟨?_, ih htl⟩
        intro b hb
        rcases insertLe_head le x ys with he | he
        · rw [he, Option.mem_some_iff] at hb
          rcases total x y with ht | ht
          · exact absurd ht hxy
          · exact hb ▸ ht
        · rw [he] at hb
          exact hhd b hb

/-- `sortBy` produces a chain-sorted list for a total comparator. -/
theorem chain'_sortBy {α : Type} (le : α → α → Bool)
    (total : ∀ a b, le a b = true ∨ le b a = true) (l : List α) :
    List.Chain' (fun a b => le a b = true) (sortBy le l) := by
  induction l with
  | nil => simp [sortBy]
  | cons a t ih => exact chain'_insertLe le total a (sortBy le t) ih

/-- Counterexample to C3 as stated: on the labels `"Tools"`, `""`,
`"prompts"`, the emitted heading order is not
`Common Types`, `` `prompts` ``, `Tools`. -/
theorem claim3_counterexample :
    categoryHeadings (renderReflection emptyCtx) exampleDecls ≠
      ["## Common Types\n".toList, ('#' :: '#' :: ' ' :: '`' :: ("prompts".toList ++ ['`'])) ++ ['\n'],
       "## Tools\n".toList] := by
  decide

/-- C3 (amended): bucket keys are emitted in code-unit lexicographic
order (an ASCII upper-case initial sorts before a lower-case one, and the
empty label sorts first); on the labels `"Tools"`, `""`, `"prompts"` the
emitted heading order is `Common Types`, `Tools`, `` `prompts` ``. -/
theorem claim3_bucket_order :
    (∀ (render : DR → List Char) (decls : List DR),
      List.Chain' (fun a b => strLe a b = true) (sortedCategoryKeys render decls)) ∧
    categoryHeadings (renderReflection emptyCtx) exampleDecls =
      ["## Common Types\n".toList, "## Tools\n".toList,
       ('#' :: '#' :: ' ' :: '`' :: ("prompts".toList ++ ['`'])) ++ ['\n']] := by
  constructor
  · intro render decls
    exact chain'_sortBy strLe strLe_total _
  · decide

/-- Characters of a `replChar` image come from the subject or from the
replacement. -/
theorem mem_replChar {t : Char} {r s : List Char} {c : Char}
    (h : c ∈ replChar t r s) : c ∈ s ∨ c ∈ r := by
  rw [replChar, List.mem_flatMap] at h
  obtain ⟨a, ha, hc⟩ := h
  by_cases he : a = t
  · rw [if_pos he] at hc
    exact Or.inr hc
  · rw [if_neg he] at hc
    rw [List.mem_singleton] at hc
    exact Or.inl (hc ▸ ha)

/-- After replacing `t`, the character `t` is gone (provided the
replacement does not contain it). -/
theorem replChar_eliminates {t : Char} {r : List Char} (hr : t ∉ r)
    (s : List Char) : t ∉ replChar t r s := by
  intro h
  rw [replChar, List.mem_flatMap] at h
  obtain ⟨a, ha, hc⟩ := h
  by_cases he : a = t
  · rw [if_pos he] at hc
    exact hr hc
  · rw [if_neg he] at hc
    rw [List.mem_singleton] at hc
    exact he (hc ▸ rfl)

/-- `replChar` is the identity on strings not containing the pattern. -/
theorem replChar_id {t : Char} {r s : List Char} (h : t ∉ s) :
    replChar t r s = s := by
  induction s with
  | nil => rfl
  | cons a as ih =>
      rw [replChar, List.flatMap_cons,
        if_neg (fun he => h (by rw [← he]; exact List.mem_cons_self a as))]
      rw [replChar] at ih
      rw [ih (fun hm => h (List.mem_cons_of_mem a hm))]
      rfl

/-- `reduceIndent` only removes characters. -/
theorem mem_reduceIndent {s : List Char} {c : Char}
    (h : c ∈ reduceIndent s) : c ∈ s := by
  induction s using reduceIndent.induct with
  | case1 a b rest hab ih =>
      rw [reduceIndent.eq_1, if_pos hab] at h
      rcases List.mem_cons.mp h with he | hm
      · rw [he, ← hab.1]
        exact List.mem_cons_self _ _
      · exact List.mem_cons_of_mem a (List.mem_cons_of_mem b (ih hm))
  | case2 a b rest hab ih =>
      rw [reduceIndent.eq_1, if_neg hab] at h
      rcases List.mem_cons.mp h with he | hm
      · rw [he]
        exact List.mem_cons_self _ _
      · exact List.mem_cons_of_mem a (ih hm)
  | case3 s hno =>
      rw [reduceIndent.eq_2 s hno] at h
      exact h

/-- `collapseNewlineTag` introduces at most the space character. -/
theorem mem_collapseNewlineTag {s : List Char} {c : Char}
    (h : c ∈ collapseNewlineTag s) : c ∈ s ∨ c = ' ' := by
  induction s using collapseNewlineTag.induct with
  | case1 =>
      rw [collapseNewlineTag.eq_1] at h
      exact Or.inl h
  | case2 rest hlt ih =>
      rw [collapseNewlineTag.eq_2, if_pos hlt] at h
      rcases List.mem_cons.mp h with he | hm
      · exact Or.inr he
      · rcases ih hm with hi | hi
        · exact Or.inl (List.mem_cons_of_mem _ ((List.dropWhile_sublist _).subset hi))
        · exact Or.inr hi
  | case3 rest hlt ih =>
      rw [collapseNewlineTag.eq_2, if_neg hlt] at h
      rcases List.mem_cons.mp h with he | hm
      · left
        rw [he]
        exact List.mem_cons_self _ _
      · rcases ih hm with hi | hi
        · exact Or.inl (List.mem_cons_of_mem _ hi)
        · exact Or.inr hi
  | case4 c2 rest hne ih =>
      rw [collapseNewlineTag.eq_3 c2 rest hne] at h
      rcases List.mem_cons.mp h with he | hm
      · left
        rw [he]
        exact List.mem_cons_self _ _
      · rcases ih hm with hi | hi
        · exact Or.inl (List.mem_cons_of_mem _ hi)
        · exact Or.inr hi

/-- A successful `tjsMatch` remainder is a tail of the subject. -/
theorem tjsMatch_drop {s r : List Char} (h : tjsMatch s = some r) :
    ∃ n, r = s.drop n := by
  unfold tjsMatch at h
  split at h
  · simp only [] at h
    split at h
    · cases h
      refine ⟨tjsOpen.length +
        (((s.drop tjsOpen.length).takeWhile fun c => c ≠ '<').length + tjsClose.length), ?_⟩
      rw [List.drop_drop, List.drop_drop]
    · exact absurd h (by simp)
  · exact absurd h (by simp)

/-- `stripTjs` only removes characters. -/
theorem mem_stripTjs {s : List Char} {c : Char}
    (h : c ∈ stripTjs s) : c ∈ s := by
  induction s using stripTjs.induct with
  | case1 =>
      rw [stripTjs.eq_1] at h
      exact h
  | case2 c2 rest r hm ih =>
      rw [stripTjs.eq_2, hm] at h
      obtain ⟨n, hn⟩ := tjsMatch_drop hm
      exact List.drop_subset n _ (hn ▸ ih h)
  | case3 c2 rest hm ih =>
      rw [stripTjs.eq_2, hm] at h
      rcases List.mem_cons.mp h with he | hmem
      · rw [he]
        exact List.mem_cons_self _ _
      · exact List.mem_cons_of_mem c2 (ih hmem)

/-- `convertHeadingOpen` introduces only characters of the replacement
template. -/
theorem mem_convertHeadingOpen {s : List Char} {c : Char}
    (h : c ∈ convertHeadingOpen s) :
    c ∈ s ∨ c ∈ "<div data-typedoc-h=\"".toList := by
  induction s using convertHeadingOpen.induct with
  | case1 d rest hd ih =>
      rw [convertHeadingOpen.eq_1, if_pos hd] at h
      rcases List.mem_append.mp h with hm | hm
      · rw [divOpen] at hm
        rcases List.mem_append.mp hm with hm2 | hm2
        · exact Or.inr hm2
        · rcases List.mem_cons.mp hm2 with he | he
          · exact Or.inl (by rw [he]; simp)
          · rw [List.mem_singleton] at he
            exact Or.inr (by rw [he]; decide)
      · rcases ih hm with hi | hi
        · exact Or.inl (by simp [hi])
        · exact Or.inr hi
  | case2 d rest hd ih =>
      rw [convertHeadingOpen.eq_1, if_neg hd] at h
      rcases List.mem_cons.mp h with he | hm
      · exact Or.inl (by rw [he]; simp)
      · rcases ih hm with hi | hi
        · exact Or.inl (by simp at hi ⊢; tauto)
        · exact Or.inr hi
  | case3 c2 rest hno ih =>
      rw [convertHeadingOpen.eq_2 c2 rest hno] at h
      rcases List.mem_cons.mp h with he | hm
      · exact Or.inl (by rw [he]; simp)
      · rcases ih hm with hi | hi
        · exact Or.inl (List.mem_cons_of_mem _ hi)
        · exact Or.inr hi
  | case4 =>
      rw [convertHeadingOpen.eq_3] at h
      exact Or.inl h

/-- `convertHeadingClose` introduces only characters of `</div>`. -/
theorem mem_convertHeadingClose {s : List Char} {c : Char}
    (h : c ∈ convertHeadingClose s) :
    c ∈ s ∨ c ∈ "</div>".toList := by
  induction s using convertHeadingClose.induct with
  | case1 d rest hd ih =>
      rw [convertHeadingClose.eq_1, if_pos hd] at h
      rcases List.mem_append.mp h with hm | hm
      · exact Or.inr hm
      · rcases ih hm with hi | hi
        · exact Or.inl (by simp [hi])
        · exact Or.inr hi
  | case2 d rest hd ih =>
      rw [convertHeadingClose.eq_1, if_neg hd] at h
      rcases List.mem_cons.mp h with he | hm
      · exact Or.inl (by rw [he]; simp)
      · rcases ih hm with hi | hi
        · exact Or.inl (by simp at hi ⊢; tauto)
        · exact Or.inr hi
  | case3 c2 rest hno ih =>
      rw [convertHeadingClose.eq_2 c2 rest hno] at h
      rcases List.mem_cons.mp h with he | hm
      · exact Or.inl (by rw [he]; simp)
      · rcases ih hm with hi | hi
        · exact Or.inl (List.mem_cons_of_mem _ hi)
        · exact Or.inr hi
  | case4 =>
      rw [convertHeadingClose.eq_3] at h
      exact Or.inl h

/-- A character outside both heading-replacement templates survives
absence through rewrites 1 and 2. -/
theorem not_mem_headingSteps {c : Char} {y : List Char}
    (hc1 : c ∉ "<div data-typedoc-h=\"".toList)
    (hc2 : c ∉ "</div>".toList) (h0 : c ∉ y) :
    c ∉ convertHeadingClose (convertHeadingOpen y) := by
  intro h
  rcases mem_convertHeadingClose h with h1 | h1
  · rcases mem_convertHeadingOpen h1 with h2 | h2
    · exact h0 h2
    · exact hc1 h2
  · exact hc2 h1

/-- No non-breaking space survives the full sanitizer: rewrite 3 encodes
every occurrence and the later rewrites cannot re-introduce one. -/
theorem nbsp_not_mem_sanitize (s : List Char) :
    nbspChar ∉ sanitizeContent s := by
  intro h
  rw [sanitizeContent] at h
  have h1 := mem_stripTjs h
  rw [escapeMintlify] at h1
  rcases mem_replChar h1 with h2 | h2
  · rcases mem_replChar h2 with h3 | h3
    · rcases mem_replChar h3 with h4 | h4
      · rcases mem_collapseNewlineTag h4 with h5 | h5
        · rw [encodeNbsp] at h5
          exact replChar_eliminates (by decide) _ h5
        · exact absurd h5 (by decide)
      · exact absurd h4 (by decide)
    · exact absurd h3 (by decide)
  · exact absurd h2 (by decide)

/-- No literal `[` survives the full sanitizer. -/
theorem lbracket_not_mem_sanitize (s : List Char) :
    '[' ∉ sanitizeContent s := by
  intro h
  rw [sanitizeContent] at h
  have h1 := mem_stripTjs h
  rw [escapeMintlify] at h1
  rcases mem_replChar h1 with h2 | h2
  · rcases mem_replChar h2 with h3 | h3
    · exact replChar_eliminates (by decide) _ h3
    · exact absurd h3 (by decide)
  · exact absurd h2 (by decide)

/-- No literal `_` survives the full sanitizer. -/
theorem underscore_not_mem_sanitize (s : List Char) :
    '_' ∉ sanitizeContent s := by
  intro h
  rw [sanitizeContent] at h
  have h1 := mem_stripTjs h
  rw [escapeMintlify] at h1
  rcases mem_replChar h1 with h2 | h2
  · exact replChar_eliminates (by decide) _ h2
  · exact absurd h2 (by decide)

/-- No literal `{` survives the full sanitizer. -/
theorem lbrace_not_mem_sanitize (s : List Char) :
    '\x7b' ∉ sanitizeContent s := by
  intro h
  rw [sanitizeContent] at h
  exact replChar_eliminates (by decide) _ (mem_stripTjs h)

/-- C8: on the output of the 6-step sanitizer, a second application of the
sequence performs no escape work in rewrites 3 and 5 — rewrite 3 of the
second run is the identity on its input (no non-breaking space is left or
re-introduced by the second run's rewrites 1–2), and rewrite 5 of the
second run is the identity on its input (no `[`, `_` or `{` is left or
re-introduced by the second run's rewrites 1–4): entities produced by the
first application are not escaped again. -/
theorem claim8_no_double_escape (s : List Char) :
    encodeNbsp (reduceIndent (convertHeadingClose (convertHeadingOpen
        (sanitizeContent s)))) =
      reduceIndent (convertHeadingClose (convertHeadingOpen
        (sanitizeContent s))) ∧
    escapeMintlify (collapseNewlineTag (encodeNbsp (reduceIndent
        (convertHeadingClose (convertHeadingOpen (sanitizeContent s)))))) =
      collapseNewlineTag (encodeNbsp (reduceIndent (convertHeadingClose
        (convertHeadingOpen (sanitizeContent s))))) := by
  have hnb : nbspChar ∉ reduceIndent (convertHeadingClose (convertHeadingOpen
      (sanitizeContent s))) := fun h =>
    not_mem_headingSteps (by decide) (by decide) (nbsp_not_mem_sanitize s)
      (mem_reduceIndent h)
  have step2id : encodeNbsp (reduceIndent (convertHeadingClose (convertHeadingOpen
      (sanitizeContent s)))) =
      reduceIndent (convertHeadingClose (convertHeadingOpen (sanitizeContent s))) := by
    rw [encodeNbsp]
    exact replChar_id hnb
  refine ⟨step2id, ?_⟩
  have habs : ∀ c : Char, c ∉ "<div data-typedoc-h=\"".toList →
      c ∉ "</div>".toList → c ≠ ' ' → c ∉ "&nbsp;".toList →
      c ∉ sanitizeContent s →
      c ∉ collapseNewlineTag (encodeNbsp (reduceIndent (convertHeadingClose
        (convertHeadingOpen (sanitizeContent s))))) := by
    intro c hc1 hc2 hc3 hc4 h0 h
    rcases mem_collapseNewlineTag h with h5 | h5
    · rw [encodeNbsp] at h5
      rcases mem_replChar h5 with h6 | h6
      · exact not_mem_headingSteps hc1 hc2 h0 (mem_reduceIndent h6)
      · exact hc4 h6
    · exact hc3 h5
  rw [escapeMintlify]
  rw [replChar_id (habs '[' (by decide) (by decide) (by decide) (by decide)
    (lbracket_not_mem_sanitize s))]
  rw [replChar_id (habs '_' (by decide) (by decide) (by decide) (by decide)
    (underscore_not_mem_sanitize s))]
  rw [replChar_id (habs '\x7b' (by decide) (by decide) (by decide) (by decide)
    (lbrace_not_mem_sanitize s))]

/-- A key that is not in the map looks up to the empty bucket. -/
theorem lookupBucket_eq_nil {m : BucketMap} {c : List Char}
    (h : hasKey m c = false) : lookupBucket m c = [] := by
  induction m with
  | nil => rfl
  | cons p rest ih =>
      obtain ⟨k, vs⟩ := p
      rw [hasKey, Bool.or_eq_false_iff] at h
      rw [lookupBucket, if_neg (by simpa using h.1)]
      exact ih h.2

/-- Lookup after one accumulation step. -/
theorem lookupBucket_bucketAppend (k : List Char) (v : List Char)
    (m : BucketMap) (c : List Char) :
    lookupBucket (bucketAppend k v m) c =
      if k = c then
        (if hasKey m k then lookupBucket m k ++ [v] else [renderCategory k, v])
      else lookupBucket m c := by
  induction m with
  | nil =>
      by_cases hkc : k = c
      · simp [bucketAppend, lookupBucket, hasKey, hkc]
      · simp [bucketAppend, lookupBucket, hasKey, hkc]
  | cons p rest ih =>
      obtain ⟨k0, vs0⟩ := p
      by_cases h0 : k0 = k
      · subst h0
        rw [bucketAppend, if_pos rfl]
        by_cases hkc : k0 = c
        · subst hkc
          simp [lookupBucket, hasKey]
        · simp [lookupBucket, hasKey, hkc]
      · rw [bucketAppend, if_neg h0]
        by_cases hkc : k = c
        · subst hkc
          rw [lookupBucket, if_neg h0, ih, if_pos rfl, if_pos rfl]
          rw [hasKey, lookupBucket, if_neg h0]
          rw [show (decide (k0 = k) || hasKey rest k) = hasKey rest k by
            simp [h0]]
        · rw [lookupBucket, ih, if_neg hkc, if_neg hkc, lookupBucket]

/-- Key presence after one accumulation step. -/
theorem hasKey_bucketAppend (k : List Char) (v : List Char)
    (m : BucketMap) (c : List Char) :
    hasKey (bucketAppend k v m) c = (decide (k = c) || hasKey m c) := by
  induction m with
  | nil => simp [bucketAppend, hasKey]
  | cons p rest ih =>
      obtain ⟨k0, vs0⟩ := p
      by_cases h0 : k0 = k
      · subst h0
        rw [bucketAppend, if_pos rfl, hasKey, hasKey]
        by_cases hkc : k0 = c
        · simp [hkc]
        · simp [hkc]
      · rw [bucketAppend, if_neg h0, hasKey, ih, hasKey]
        rw [Bool.or_left_comm]

/-- Key presence in the accumulated bucket map. -/
theorem hasKey_foldl (render : DR → List Char) (decls : List DR) :
    ∀ (m : BucketMap) (c : List Char),
      hasKey (decls.foldl
          (fun m d => bucketAppend (getReflectionCategory d) (render d) m) m) c =
        (hasKey m c || decls.any fun d => decide (getReflectionCategory d = c)) := by
  induction decls with
  | nil => intro m c; simp
  | cons d ds ih =>
      intro m c
      rw [List.foldl_cons, ih, hasKey_bucketAppend, List.any_cons]
      rw [Bool.or_assoc, Bool.or_left_comm]

/-- The bucket accumulated for a category key holds the category heading
first, then the rendered fragments of exactly the declarations with that
category, in traversal order. -/
theorem lookupBucket_foldl (render : DR → List Char) (decls : List DR) :
    ∀ (m : BucketMap) (c : List Char),
      lookupBucket (decls.foldl
          (fun m d => bucketAppend (getReflectionCategory d) (render d) m) m) c =
        (if hasKey m c then lookupBucket m c
         else if decls.any (fun d => decide (getReflectionCategory d = c))
           then [renderCategory c] else []) ++
        (decls.filter (fun d => decide (getReflectionCategory d = c))).map render := by
  induction decls with
  | nil =>
      intro m c
      by_cases h : hasKey m c
      · simp [h]
      · simp only [List.foldl_nil, List.any_nil, List.filter_nil, List.map_nil,
          List.append_nil, if_neg h, Bool.false_eq_true, if_false]
        exact lookupBucket_eq_nil (by simpa using h)
  | cons d ds ih =>
      intro m c
      rw [List.foldl_cons, ih, lookupBucket_bucketAppend, hasKey_bucketAppend,
        List.any_cons, List.filter_cons]
      by_cases hdc : getReflectionCategory d = c
      · subst hdc
        by_cases hm : hasKey m (getReflectionCategory d)
        · simp [hm]
        · simp [hm]
      · simp [hdc]

/-- Membership is preserved by `insertLe`. -/
theorem mem_insertLe {α : Type} (le : α → α → Bool) (x a : α) (l : List α) :
    a ∈ insertLe le x l ↔ a = x ∨ a ∈ l := by
  induction l with
  | nil => simp [insertLe]
  | cons y ys ih =>
      rw [insertLe]
      split
      · simp [List.mem_cons]
      · rw [List.mem_cons, ih, List.mem_cons]
        tauto

/-- `sortBy` is a permutation as far as membership is concerned. -/
theorem mem_sortBy {α : Type} (le : α → α → Bool) (a : α) (l : List α) :
    a ∈ sortBy le l ↔ a ∈ l := by
  induction l with
  | nil => simp [sortBy]
  | cons y ys ih =>
      rw [sortBy, List.foldr_cons]
      rw [show List.foldr (insertLe le) [] ys = sortBy le ys from rfl]
      rw [mem_insertLe, ih, List.mem_cons]

/-- `flatMap` respects pointwise equality on the list. -/
theorem flatMap_congr_mem {α β : Type} (l : List α) (f g : α → List β)
    (h : ∀ x ∈ l, f x = g x) : l.flatMap f = l.flatMap g := by
  induction l with
  | nil => rfl
  | cons a t ih =>
      rw [List.flatMap_cons, List.flatMap_cons, h a (List.mem_cons_self a t),
        ih fun x hx => h x (List.mem_cons_of_mem a hx)]

/-- Keys of the bucket map are exactly the keys `hasKey` reports. -/
theorem mem_keys_iff_hasKey (m : BucketMap) (c : List Char) :
    c ∈ m.map Prod.fst ↔ hasKey m c = true := by
  induction m with
  | nil => simp [hasKey]
  | cons p rest ih =>
      obtain ⟨k, vs⟩ := p
      rw [List.map_cons, List.mem_cons, hasKey, Bool.or_eq_true, decide_eq_true_eq, ih]
      constructor
      · rintro (he | hm)
        · exact Or.inl he.symm
        · exact Or.inr hm
      · rintro (he | hm)
        · exact Or.inl he.symm
        · exact Or.inr hm

/-- C9: the emitted text stream is the 3-line front-matter block with
title `Schema Reference`, a blank line, the empty anchor-target element
`<div id="schema-reference" />`, a blank line, and then the document body;
the body is the concatenation, in category order, of each bucket's
elements — the category heading first, then one rendered fragment per
declaration of that category (declarations in name-sorted order) —
separated by single newlines. -/
theorem claim9_document_structure (ctx : RenderContext) (decls : List DR) :
    load ctx decls =
      "---\n".toList ++ "title: Schema Reference\n".toList ++ "---\n\n".toList ++
        "<div id=\"schema-reference\" />\n\n".toList ++
        joinNl ((sortedCategoryKeys (renderReflection ctx) decls).flatMap
          fun c => renderCategory c ::
            ((sortBy nameLe decls).filter
              (fun d => decide (getReflectionCategory d = c))).map
              (renderReflection ctx)) := by
  rw [load, renderPageEvents]
  have hbody : (sortedCategoryKeys (renderReflection ctx) decls).flatMap
      (lookupBucket (buildBuckets (renderReflection ctx) (sortBy nameLe decls))) =
    (sortedCategoryKeys (renderReflection ctx) decls).flatMap
      fun c => renderCategory c ::
        ((sortBy nameLe decls).filter
          (fun d => decide (getReflectionCategory d = c))).map
          (renderReflection ctx) := by
    apply flatMap_congr_mem
    intro c hc
    have hkey : hasKey (buildBuckets (renderReflection ctx) (sortBy nameLe decls)) c = true := by
      rw [← mem_keys_iff_hasKey]
      exact (mem_sortBy strLe c _).mp hc
    have hany : ((sortBy nameLe decls).any
        fun d => decide (getReflectionCategory d = c)) = true := by
      have := hasKey_foldl (renderReflection ctx) (sortBy nameLe decls) [] c
      rw [show (sortBy nameLe decls).foldl
          (fun m d => bucketAppend (getReflectionCategory d) (renderReflection ctx d) m) [] =
        buildBuckets (renderReflection ctx) (sortBy nameLe decls) from rfl] at this
      rw [hkey] at this
      simpa [hasKey] using this.symm
    rw [show buildBuckets (renderReflection ctx) (sortBy nameLe decls) =
        (sortBy nameLe decls).foldl
          (fun m d => bucketAppend (getReflectionCategory d) (renderReflection ctx d) m) []
      from rfl]
    rw [lookupBucket_foldl]
    rw [show hasKey ([] : BucketMap) c = false from rfl]
    simp only [Bool.false_eq_true, if_false, hany, if_true]
    rfl
  rw [hbody]

/-- Code-point bounds of the regex class `[1-6]`. -/
theorem isHDigit_toNat {d : Char} (h : isHDigit d = true) :
    49 ≤ d.toNat ∧ d.toNat ≤ 54 := by
  rw [isHDigit, Bool.and_eq_true, decide_eq_true_eq, decide_eq_true_eq] at h
  obtain ⟨h1, h2⟩ := h
  rw [Char.le_def, UInt32.le_def] at h1 h2
  exact ⟨h1, h2⟩

/-- A heading digit is one of the six concrete characters. -/
theorem isHDigit_cases {d : Char} (h : isHDigit d = true) :
    d = '1' ∨ d = '2' ∨ d = '3' ∨ d = '4' ∨ d = '5' ∨ d = '6' := by
  obtain ⟨h1, h2⟩ := isHDigit_toNat h
  have : d.toNat = 49 ∨ d.toNat = 50 ∨ d.toNat = 51 ∨ d.toNat = 52 ∨
      d.toNat = 53 ∨ d.toNat = 54 := by omega
  rcases this with h | h | h | h | h | h
  · exact Or.inl (char_eq_of_toNat_eq h)
  · exact Or.inr (Or.inl (char_eq_of_toNat_eq h))
  · exact Or.inr (Or.inr (Or.inl (char_eq_of_toNat_eq h)))
  · exact Or.inr (Or.inr (Or.inr (Or.inl (char_eq_of_toNat_eq h))))
  · exact Or.inr (Or.inr (Or.inr (Or.inr (Or.inl (char_eq_of_toNat_eq h)))))
  · exact Or.inr (Or.inr (Or.inr (Or.inr (Or.inr (char_eq_of_toNat_eq h)))))

/-- A heading digit is not `<`. -/
theorem isHDigit_ne_lt {d : Char} (h : isHDigit d = true) : d ≠ '<' := by
  intro he
  obtain ⟨h1, h2⟩ := isHDigit_toNat h
  rw [he] at h2
  revert h2
  decide

/-- A heading digit is not `h`. -/
theorem isHDigit_ne_h {d : Char} (h : isHDigit d = true) : d ≠ 'h' := by
  intro he
  obtain ⟨h1, h2⟩ := isHDigit_toNat h
  rw [he] at h2
  revert h2
  decide

/-- Decomposition of a prefix test against a cons cell. -/
theorem isPrefixOf_cons_iff (q : List Char) (c : Char) (s : List Char) :
    q.isPrefixOf (c :: s) = true ↔
      q = [] ∨ ∃ qt, q = c :: qt ∧ qt.isPrefixOf s = true := by
  cases q with
  | nil => simp [List.isPrefixOf]
  | cons qh qt =>
      rw [List.isPrefixOf, Bool.and_eq_true, beq_iff_eq]
      constructor
      · rintro ⟨he, hp⟩
        exact Or.inr ⟨qt, by rw [he], hp⟩
      · rintro (he | ⟨qt2, he, hp⟩)
        · exact absurd he (by simp)
        · obtain ⟨he1, he2⟩ := List.cons.injEq qh qt c qt2 ▸ he
          exact ⟨he1, he2 ▸ hp⟩

/-- The tail step of `containsSeq`. -/
theorem containsSeq_cons_false {pat : List Char} {c : Char} {s : List Char}
    (h : containsSeq pat (c :: s) = false) : containsSeq pat s = false := by
  rw [containsSeq, Bool.or_eq_false_iff] at h
  exact h.2

/-- A prefix occurrence is an occurrence. -/
theorem containsSeq_of_isPrefixOf {pat : List Char} {c : Char} {s : List Char}
    (h : pat.isPrefixOf (c :: s) = true) : containsSeq pat (c :: s) = true := by
  rw [containsSeq, Bool.or_eq_true]
  exact Or.inl h

/-- An occurrence inside `u ++ v` either starts inside `u` (as a prefix of
some tail of `u` continued into `v`) or lies inside `v`. -/
theorem containsSeq_append_cases (pat : List Char) :
    ∀ (u v : List Char), containsSeq pat (u ++ v) = true →
      (∃ i, i < u.length ∧ pat.isPrefixOf (u.drop i ++ v) = true) ∨
        containsSeq pat v = true := by
  intro u
  induction u with
  | nil => intro v h; exact Or.inr h
  | cons x u2 ih =>
      intro v h
      rw [List.cons_append, containsSeq, Bool.or_eq_true] at h
      rcases h with h | h
      · exact Or.inl ⟨0, by simp, by simpa using h⟩
      · rcases ih v h with ⟨i, hi, hp⟩ | hv
        · exact Or.inl ⟨i + 1, by simpa using hi, by simpa using hp⟩
        · exact Or.inr hv

/-- A `<`-free prefix of `convertHeadingOpen s` is a prefix of `s`: the
rewrite only fires at `<` and all its replacements start with `<`. -/
theorem prefix_reflect_open :
    ∀ (s q : List Char), '<' ∉ q →
      q.isPrefixOf (convertHeadingOpen s) = true → q.isPrefixOf s = true := by
  intro s
  induction s using convertHeadingOpen.induct with
  | case1 d rest hd ih =>
      intro q hq hp
      cases q with
      | nil => rfl
      | cons qh qt =>
          rw [convertHeadingOpen.eq_1, if_pos hd] at hp
          rw [show divOpen d ++ convertHeadingOpen rest =
            '<' :: ("div data-typedoc-h=\"".toList ++ d :: '"' ::
              convertHeadingOpen rest) from rfl] at hp
          rw [isPrefixOf_cons_iff] at hp
          rcases hp with he | ⟨qt2, he, _⟩
          · exact absurd he (by simp)
          · have h1 : qh = '<' := by injection he
            exact absurd (h1 ▸ List.mem_cons_self qh qt) hq
  | case2 d rest hd ih =>
      intro q hq hp
      cases q with
      | nil => rfl
      | cons qh qt =>
          rw [convertHeadingOpen.eq_1, if_neg hd] at hp
          rw [isPrefixOf_cons_iff] at hp
          rcases hp with he | ⟨qt2, he, _⟩
          · exact absurd he (by simp)
          · have h1 : qh = '<' := by injection he
            exact absurd (h1 ▸ List.mem_cons_self qh qt) hq
  | case3 c rest hno ih =>
      intro q hq hp
      rw [convertHeadingOpen.eq_2 c rest hno] at hp
      cases q with
      | nil => rfl
      | cons qh qt =>
          rw [isPrefixOf_cons_iff] at hp
          rcases hp with he | ⟨qt2, he, hp2⟩
          · exact absurd he (by simp)
          · have h1 : qh = c := by injection he
            have h2 : qt = qt2 := by injection he
            have h3 := ih qt (fun hm => hq (List.mem_cons_of_mem _ hm)) (h2 ▸ hp2)
            rw [isPrefixOf_cons_iff]
            exact Or.inr ⟨qt, by rw [h1], h3⟩
  | case4 =>
      intro q hq hp
      rw [convertHeadingOpen.eq_3] at hp
      cases q with
      | nil => rfl
      | cons qh qt => simp [List.isPrefixOf] at hp

/-- A `<`-free prefix of `convertHeadingClose s` is a prefix of `s`. -/
theorem prefix_reflect_close :
    ∀ (s q : List Char), '<' ∉ q →
      q.isPrefixOf (convertHeadingClose s) = true → q.isPrefixOf s = true := by
  intro s
  induction s using convertHeadingClose.induct with
  | case1 d rest hd ih =>
      intro q hq hp
      cases q with
      | nil => rfl
      | cons qh qt =>
          rw [convertHeadingClose.eq_1, if_pos hd] at hp
          rw [show "</div>".toList ++ convertHeadingClose rest =
            '<' :: ("/div>".toList ++ convertHeadingClose rest) from rfl] at hp
          rw [isPrefixOf_cons_iff] at hp
          rcases hp with he | ⟨qt2, he, _⟩
          · exact absurd he (by simp)
          · have h1 : qh = '<' := by injection he
            exact absurd (h1 ▸ List.mem_cons_self qh qt) hq
  | case2 d rest hd ih =>
      intro q hq hp
      cases q with
      | nil => rfl
      | cons qh qt =>
          rw [convertHeadingClose.eq_1, if_neg hd] at hp
          rw [isPrefixOf_cons_iff] at hp
          rcases hp with he | ⟨qt2, he, _⟩
          · exact absurd he (by simp)
          · have h1 : qh = '<' := by injection he
            exact absurd (h1 ▸ List.mem_cons_self qh qt) hq
  | case3 c rest hno ih =>
      intro q hq hp
      rw [convertHeadingClose.eq_2 c rest hno] at hp
      cases q with
      | nil => rfl
      | cons qh qt =>
          rw [isPrefixOf_cons_iff] at hp
          rcases hp with he | ⟨qt2, he, hp2⟩
          · exact absurd he (by simp)
          · have h1 : qh = c := by injection he
            have h2 : qt = qt2 := by injection he
            have h3 := ih qt (fun hm => hq (List.mem_cons_of_mem _ hm)) (h2 ▸ hp2)
            rw [isPrefixOf_cons_iff]
            exact Or.inr ⟨qt, by rw [h1], h3⟩
  | case4 =>
      intro q hq hp
      rw [convertHeadingClose.eq_3] at hp
      cases q with
      | nil => rfl
      | cons qh qt => simp [List.isPrefixOf] at hp

/-- After rewrite 1, no opening heading tag `<h1`…`<h6` remains: every
occurrence was replaced, the replacements contain none, and no new
occurrence can arise at a boundary. -/
theorem no_open_after_open (d : Char) (hd : isHDigit d = true) :
    ∀ s, containsSeq ['<', 'h', d] (convertHeadingOpen s) = false := by
  intro s
  induction s using convertHeadingOpen.induct with
  | case1 d0 rest hd0 ih =>
      rw [convertHeadingOpen.eq_1, if_pos hd0]
      cases hc : containsSeq ['<', 'h', d] (divOpen d0 ++ convertHeadingOpen rest) with
      | false => rfl
      | true =>
          exfalso
          rcases containsSeq_append_cases _ (divOpen d0) _ hc with ⟨i, hi, hp⟩ | hv
          · rw [show divOpen d0 = '<' :: 'd' :: 'i' :: 'v' :: ' ' :: 'd' :: 'a' ::
              't' :: 'a' :: '-' :: 't' :: 'y' :: 'p' :: 'e' :: 'd' :: 'o' :: 'c' ::
              '-' :: 'h' :: '=' :: '"' :: d0 :: '"' :: [] from rfl] at hi hp
            simp only [List.length_cons, List.length_nil] at hi
            interval_cases i <;> simp [List.isPrefixOf] at hp
          · rw [ih] at hv
            exact Bool.false_ne_true hv
  | case2 d0 rest hd0 ih =>
      rw [convertHeadingOpen.eq_1, if_neg hd0, containsSeq, ih, Bool.or_false]
      cases hb : List.isPrefixOf ['<', 'h', d]
          ('<' :: convertHeadingOpen ('h' :: d0 :: rest)) with
      | false => rfl
      | true =>
          exfalso
          rw [isPrefixOf_cons_iff] at hb
          rcases hb with he | ⟨qt, he, hp⟩
          · exact absurd he (by simp)
          · have hqt : qt = ['h', d] := by
              injection he with h1 h2
              exact h2.symm
            subst hqt
            have hmem : '<' ∉ ['h', d] := by
              intro hm
              rcases List.mem_cons.mp hm with h1 | h1
              · exact absurd h1 (by decide)
              · rw [List.mem_singleton] at h1
                exact isHDigit_ne_lt hd h1.symm
            have hrefl := prefix_reflect_open ('h' :: d0 :: rest) ['h', d] hmem hp
            simp [List.isPrefixOf] at hrefl
            exact absurd (hrefl ▸ hd) (by simpa using hd0)
  | case3 c rest hno ih =>
      rw [convertHeadingOpen.eq_2 c rest hno, containsSeq, ih, Bool.or_false]
      cases hb : List.isPrefixOf ['<', 'h', d] (c :: convertHeadingOpen rest) with
      | false => rfl
      | true =>
          exfalso
          rw [isPrefixOf_cons_iff] at hb
          rcases hb with he | ⟨qt, he, hp⟩
          · exact absurd he (by simp)
          · have hc : c = '<' := by injection he with h1 _; exact h1.symm
            have hqt : qt = ['h', d] := by
              injection he with h1 h2
              exact h2.symm
            subst hqt
            have hmem : '<' ∉ ['h', d] := by
              intro hm
              rcases List.mem_cons.mp hm with h1 | h1
              · exact absurd h1 (by decide)
              · rw [List.mem_singleton] at h1
                exact isHDigit_ne_lt hd h1.symm
            have hrefl := prefix_reflect_open rest ['h', d] hmem hp
            obtain ⟨t, ht⟩ := List.isPrefixOf_iff_prefix.mp hrefl
            exact hno d t hc (by rw [← ht]; rfl)
  | case4 =>
      rw [convertHeadingOpen.eq_3]
      simp [containsSeq]

/-- After rewrite 2, no closing heading tag `</h1>`…`</h6>` remains. -/
theorem no_close_after_close (d : Char) (hd : isHDigit d = true) :
    ∀ s, containsSeq ['<', '/', 'h', d, '>'] (convertHeadingClose s) = false := by
  intro s
  induction s using convertHeadingClose.induct with
  | case1 d0 rest hd0 ih =>
      rw [convertHeadingClose.eq_1, if_pos hd0]
      cases hc : containsSeq ['<', '/', 'h', d, '>']
          ("</div>".toList ++ convertHeadingClose rest) with
      | false => rfl
      | true =>
          exfalso
          rcases containsSeq_append_cases _ ("</div>".toList) _ hc with ⟨i, hi, hp⟩ | hv
          · rw [show "</div>".toList = '<' :: '/' :: 'd' :: 'i' :: 'v' :: '>' :: []
              from rfl] at hi hp
            simp only [List.length_cons, List.length_nil] at hi
            interval_cases i <;> simp [List.isPrefixOf] at hp
          · rw [ih] at hv
            exact Bool.false_ne_true hv
  | case2 d0 rest hd0 ih =>
      rw [convertHeadingClose.eq_1, if_neg hd0, containsSeq, ih, Bool.or_false]
      cases hb : List.isPrefixOf ['<', '/', 'h', d, '>']
          ('<' :: convertHeadingClose ('/' :: 'h' :: d0 :: '>' :: rest)) with
      | false => rfl
      | true =>
          exfalso
          rw [isPrefixOf_cons_iff] at hb
          rcases hb with he | ⟨qt, he, hp⟩
          · exact absurd he (by simp)
          · have hqt : qt = ['/', 'h', d, '>'] := by
              injection he with h1 h2
              exact h2.symm
            subst hqt
            have hmem : '<' ∉ ['/', 'h', d, '>'] := by
              intro hm
              rcases List.mem_cons.mp hm with h1 | h1
              · exact absurd h1 (by decide)
              · rcases List.mem_cons.mp h1 with h2 | h2
                · exact absurd h2 (by decide)
                · rcases List.mem_cons.mp h2 with h3 | h3
                  · exact isHDigit_ne_lt hd h3.symm
                  · rw [List.mem_singleton] at h3
                    exact absurd h3 (by decide)
            have hrefl := prefix_reflect_close ('/' :: 'h' :: d0 :: '>' :: rest)
              ['/', 'h', d, '>'] hmem hp
            simp [List.isPrefixOf] at hrefl
            exact absurd (hrefl ▸ hd) (by simpa using hd0)
  | case3 c rest hno ih =>
      rw [convertHeadingClose.eq_2 c rest hno, containsSeq, ih, Bool.or_false]
      cases hb : List.isPrefixOf ['<', '/', 'h', d, '>']
          (c :: convertHeadingClose rest) with
      | false => rfl
      | true =>
          exfalso
          rw [isPrefixOf_cons_iff] at hb
          rcases hb with he | ⟨qt, he, hp⟩
          · exact absurd he (by simp)
          · have hc : c = '<' := by injection he with h1 _; exact h1.symm
            have hqt : qt = ['/', 'h', d, '>'] := by
              injection he with h1 h2
              exact h2.symm
            subst hqt
            have hmem : '<' ∉ ['/', 'h', d, '>'] := by
              intro hm
              rcases List.mem_cons.mp hm with h1 | h1
              · exact absurd h1 (by decide)
              · rcases List.mem_cons.mp h1 with h2 | h2
                · exact absurd h2 (by decide)
                · rcases List.mem_cons.mp h2 with h3 | h3
                  · exact isHDigit_ne_lt hd h3.symm
                  · rw [List.mem_singleton] at h3
                    exact absurd h3 (by decide)
            have hrefl := prefix_reflect_close rest ['/', 'h', d, '>'] hmem hp
            obtain ⟨t, ht⟩ := List.isPrefixOf_iff_prefix.mp hrefl
            exact hno d t hc (by rw [← ht]; rfl)
  | case4 =>
      rw [convertHeadingClose.eq_3]
      simp [containsSeq]

/-- Rewrite 2 does not re-introduce an opening heading tag. -/
theorem open_preserved_by_close (d : Char) (hd : isHDigit d = true) :
    ∀ s, containsSeq ['<', 'h', d] s = false →
      containsSeq ['<', 'h', d] (convertHeadingClose s) = false := by
  intro s
  induction s using convertHeadingClose.induct with
  | case1 d0 rest hd0 ih =>
      intro hs
      rw [convertHeadingClose.eq_1, if_pos hd0]
      have hs5 : containsSeq ['<', 'h', d] rest = false :=
        containsSeq_cons_false (containsSeq_cons_false (containsSeq_cons_false
          (containsSeq_cons_false (containsSeq_cons_false hs))))
      cases hc : containsSeq ['<', 'h', d]
          ("</div>".toList ++ convertHeadingClose rest) with
      | false => rfl
      | true =>
          exfalso
          rcases containsSeq_append_cases _ ("</div>".toList) _ hc with ⟨i, hi, hp⟩ | hv
          · rw [show "</div>".toList = '<' :: '/' :: 'd' :: 'i' :: 'v' :: '>' :: []
              from rfl] at hi hp
            simp only [List.length_cons, List.length_nil] at hi
            interval_cases i <;> simp [List.isPrefixOf] at hp
          · rw [ih hs5] at hv
            exact Bool.false_ne_true hv
  | case2 d0 rest hd0 ih =>
      intro hs
      rw [convertHeadingClose.eq_1, if_neg hd0, containsSeq,
        ih (containsSeq_cons_false hs), Bool.or_false]
      cases hb : List.isPrefixOf ['<', 'h', d]
          ('<' :: convertHeadingClose ('/' :: 'h' :: d0 :: '>' :: rest)) with
      | false => rfl
      | true =>
          exfalso
          rw [isPrefixOf_cons_iff] at hb
          rcases hb with he | ⟨qt, he, hp⟩
          · exact absurd he (by simp)
          · have hqt : qt = ['h', d] := by
              injection he with h1 h2
              exact h2.symm
            subst hqt
            have hmem : '<' ∉ ['h', d] := by
              intro hm
              rcases List.mem_cons.mp hm with h1 | h1
              · exact absurd h1 (by decide)
              · rw [List.mem_singleton] at h1
                exact isHDigit_ne_lt hd h1.symm
            have hrefl := prefix_reflect_close ('/' :: 'h' :: d0 :: '>' :: rest)
              ['h', d] hmem hp
            simp [List.isPrefixOf] at hrefl
  | case3 c rest hno ih =>
      intro hs
      rw [convertHeadingClose.eq_2 c rest hno, containsSeq,
        ih (containsSeq_cons_false hs), Bool.or_false]
      cases hb : List.isPrefixOf ['<', 'h', d] (c :: convertHeadingClose rest) with
      | false => rfl
      | true =>
          exfalso
          rw [isPrefixOf_cons_iff] at hb
          rcases hb with he | ⟨qt, he, hp⟩
          · exact absurd he (by simp)
          · have hc : c = '<' := by injection he with h1 _; exact h1.symm
            have hqt : qt = ['h', d] := by
              injection he with h1 h2
              exact h2.symm
            subst hqt
            have hmem : '<' ∉ ['h', d] := by
              intro hm
              rcases List.mem_cons.mp hm with h1 | h1
              · exact absurd h1 (by decide)
              · rw [List.mem_singleton] at h1
                exact isHDigit_ne_lt hd h1.symm
            have hrefl := prefix_reflect_close rest ['h', d] hmem hp
            have hpre : List.isPrefixOf ['<', 'h', d] (c :: rest) = true := by
              rw [isPrefixOf_cons_iff]
              exact Or.inr ⟨['h', d], by rw [hc], hrefl⟩
            rw [containsSeq_of_isPrefixOf hpre] at hs
            exact absurd hs (by decide)
  | case4 =>
      intro _
      rw [convertHeadingClose.eq_3]
      simp [containsSeq]

/-- The six digit characters of the heading regex class. -/
def hDigits : List Char := ['1', '2', '3', '4', '5', '6']

/-- Whether `s` contains an opening heading tag `<h1`…`<h6`. -/
def hasOpenTag (s : List Char) : Bool :=
  hDigits.any fun x => containsSeq ['<', 'h', x] s

/-- No opening tag in `c :: t` means none in `t`. -/
theorem hasOpenTag_tail {c : Char} {t : List Char}
    (h : hasOpenTag (c :: t) = false) : hasOpenTag t = false := by
  rw [hasOpenTag, List.any_eq_false] at h ⊢
  simp only [Bool.not_eq_true] at h ⊢
  intro x hx
  exact containsSeq_cons_false (h x hx)

/-- An open-tag-free string contains no occurrence of `['<', 'h', d]` for
a heading digit `d`. -/
theorem containsSeq_false_of_no_open {s : List Char} {d : Char}
    (hd : isHDigit d = true) (h : hasOpenTag s = false) :
    containsSeq ['<', 'h', d] s = false := by
  rw [hasOpenTag, List.any_eq_false] at h
  have hmem : d ∈ hDigits := by
    rcases isHDigit_cases hd with h1 | h1 | h1 | h1 | h1 | h1 <;>
      · rw [h1]; decide
  have := h d hmem
  simpa using this

/-- Rewrite 1 maps each occurrence of an opening heading tag that is
preceded by open-tag-free text to the `div` replacement template, leaving
the preceding text untouched and continuing on the remainder. -/
theorem convertHeadingOpen_append (b : List Char) (d : Char)
    (hd : isHDigit d = true) :
    ∀ (n : Nat) (a : List Char), a.length ≤ n → hasOpenTag a = false →
      convertHeadingOpen (a ++ '<' :: 'h' :: d :: b) =
        a ++ divOpen d ++ convertHeadingOpen b := by
  intro n
  induction n with
  | zero =>
      intro a hlen _
      have hnil : a = [] := List.eq_nil_of_length_eq_zero (Nat.le_zero.mp hlen)
      subst hnil
      rw [List.nil_append, convertHeadingOpen.eq_1, if_pos hd]
      simp
  | succ n ihn =>
      intro a hlen ha
      rcases a with _ | ⟨c1, a1⟩
      · rw [List.nil_append, convertHeadingOpen.eq_1, if_pos hd]
        simp
      · rcases a1 with _ | ⟨c2, a2⟩
        · rw [List.cons_append, List.nil_append]
          have hno : ∀ (d' : Char) (r' : List Char), c1 = '<' →
              '<' :: 'h' :: d :: b = 'h' :: d' :: r' → False := by
            intro d' r' _ he
            injection he with h1 _
            exact absurd h1 (by decide)
          rw [convertHeadingOpen.eq_2 c1 _ hno, convertHeadingOpen.eq_1, if_pos hd]
          simp
        · by_cases h12 : c1 = '<' ∧ c2 = 'h'
          · obtain ⟨e1, e2⟩ := h12
            subst e1
            subst e2
            rcases a2 with _ | ⟨c3, a3⟩
            · rw [show ('<' :: 'h' :: []) ++ '<' :: 'h' :: d :: b =
                '<' :: 'h' :: '<' :: 'h' :: d :: b from rfl]
              rw [convertHeadingOpen.eq_1, if_neg (by decide)]
              have hstep := ihn ['h'] (by simp at hlen ⊢; omega) (by decide)
              rw [show ('h' :: []) ++ '<' :: 'h' :: d :: b =
                'h' :: '<' :: 'h' :: d :: b from rfl] at hstep
              rw [hstep]
              simp
            · by_cases hc3 : isHDigit c3 = true
              · exfalso
                have hocc : containsSeq ['<', 'h', c3]
                    ('<' :: 'h' :: c3 :: a3) = true :=
                  containsSeq_of_isPrefixOf (by simp [List.isPrefixOf])
                rw [containsSeq_false_of_no_open hc3 ha] at hocc
                exact absurd hocc (by decide)
              · rw [show ('<' :: 'h' :: c3 :: a3) ++ '<' :: 'h' :: d :: b =
                  '<' :: 'h' :: c3 :: (a3 ++ '<' :: 'h' :: d :: b) from by simp]
                rw [convertHeadingOpen.eq_1, if_neg hc3]
                have hstep := ihn ('h' :: c3 :: a3) (by simp at hlen ⊢; omega)
                  (hasOpenTag_tail ha)
                rw [show ('h' :: c3 :: a3) ++ '<' :: 'h' :: d :: b =
                  'h' :: c3 :: (a3 ++ '<' :: 'h' :: d :: b) from by simp] at hstep
                rw [hstep]
                simp
          · rw [show (c1 :: c2 :: a2) ++ '<' :: 'h' :: d :: b =
              c1 :: (c2 :: (a2 ++ '<' :: 'h' :: d :: b)) from by simp]
            have hno : ∀ (d' : Char) (r' : List Char), c1 = '<' →
                c2 :: (a2 ++ '<' :: 'h' :: d :: b) = 'h' :: d' :: r' → False := by
              intro d' r' he1 he2
              injection he2 with h1 _
              exact h12 ⟨he1, h1⟩
            rw [convertHeadingOpen.eq_2 c1 _ hno]
            have hstep := ihn (c2 :: a2) (by simp at hlen ⊢; omega)
              (hasOpenTag_tail ha)
            rw [show (c2 :: a2) ++ '<' :: 'h' :: d :: b =
              c2 :: (a2 ++ '<' :: 'h' :: d :: b) from by simp] at hstep
            rw [hstep]
            simp

/-- `containsSeq` decides exactly the existence of a contiguous occurrence. -/
theorem containsSeq_iff_decomposition (pat : List Char) :
    ∀ s, containsSeq pat s = true ↔ ∃ u v, s = u ++ pat ++ v := by
  intro s
  induction s with
  | nil =>
      rw [containsSeq]
      constructor
      · intro h
        rw [decide_eq_true_eq] at h
        exact ⟨[], [], by simp [h]⟩
      · rintro ⟨u, v, he⟩
        rw [decide_eq_true_eq]
        rcases List.append_eq_nil.mp he.symm with ⟨h1, _⟩
        exact (List.append_eq_nil.mp h1).2
  | cons c t ih =>
      rw [containsSeq, Bool.or_eq_true, ih]
      constructor
      · rintro (hp | ⟨u, v, he⟩)
        · obtain ⟨v, hv⟩ := List.isPrefixOf_iff_prefix.mp hp
          exact ⟨[], v, by rw [← hv]; rfl⟩
        · exact ⟨c :: u, v, by rw [he]; rfl⟩
      · rintro ⟨u, v, he⟩
        cases u with
        | nil =>
            left
            rw [List.nil_append] at he
            exact List.isPrefixOf_iff_prefix.mpr ⟨v, he.symm⟩
        | cons u0 u2 =>
            right
            have ht : t = u2 ++ pat ++ v := by injection he
            exact ⟨u2, v, ht⟩

/-- C7: after the two heading-neutralization rewrites, no opening tag
`<h1`…`<h6` and no closing tag `</h1>`…`</h6>` occurs anywhere in the
content; and each opening heading tag (preceded by open-tag-free text) is
rewritten to the generic block tag `<div data-typedoc-h="…"` carrying the
original level as a data attribute, in place. -/
theorem claim7_heading_tags (s : List Char) :
    (∀ d, isHDigit d = true →
      (¬ ∃ u v, convertHeadingClose (convertHeadingOpen s) =
        u ++ ['<', 'h', d] ++ v) ∧
      (¬ ∃ u v, convertHeadingClose (convertHeadingOpen s) =
        u ++ ['<', '/', 'h', d, '>'] ++ v)) ∧
    (∀ (a b : List Char) (d : Char), isHDigit d = true → hasOpenTag a = false →
      convertHeadingOpen (a ++ '<' :: 'h' :: d :: b) =
        a ++ divOpen d ++ convertHeadingOpen b) := by
  constructor
  · intro d hd
    constructor
    · rintro ⟨u, v, he⟩
      have h1 := open_preserved_by_close d hd (convertHeadingOpen s)
        (no_open_after_open d hd s)
      have h2 := (containsSeq_iff_decomposition ['<', 'h', d] _).mpr ⟨u, v, he⟩
      rw [h1] at h2
      exact absurd h2 (by decide)
    · rintro ⟨u, v, he⟩
      have h1 := no_close_after_close d hd (convertHeadingOpen s)
      have h2 := (containsSeq_iff_decomposition ['<', '/', 'h', d, '>'] _).mpr
        ⟨u, v, he⟩
      rw [h1] at h2
      exact absurd h2 (by decide)
  · intro a b d hd ha
    exact convertHeadingOpen_append b d hd a.length a (le_refl _) ha

/-- Witness for C7 at a concrete fragment: the heading `<h2` preceded by
`x` is replaced in place by the `div` template. -/
theorem claim7_heading_tags_witness :
    convertHeadingOpen ("x".toList ++ '<' :: 'h' :: '2' :: ">T".toList) =
      "x".toList ++ divOpen '2' ++ convertHeadingOpen ">T".toList :=
  (claim7_heading_tags []).2 "x".toList ">T".toList '2' (by decide) (by decide)
